import Mathlib

/-!
Verification of the Push 3 display tool (tools/display_test.py).

Bytes are modelled as natural numbers (each below 256 where the source
guarantees it); byte buffers are lists of naturals.  The USB transport is
modelled as an environment function giving the outcome of the n-th write
call of a frame; a run of send_frame returns the list of attempted writes
(endpoint, bytes) together with its result.
-/

namespace Push3

/-- Protocol constant FRAME_HEADER from the source: four magic bytes
followed by twelve zero bytes. -/
def FRAME_HEADER : List Nat :=
  [0xFF, 0xCC, 0xAA, 0x88,
   0x00, 0x00, 0x00, 0x00,
   0x00, 0x00, 0x00, 0x00,
   0x00, 0x00, 0x00, 0x00]

/-- Protocol constant XOR_PATTERN from the source. -/
def XOR_PATTERN : List Nat := [0xE7, 0xF3, 0xE7, 0xFF]

/-- Display width in pixels (DISPLAY_WIDTH in the source). -/
def DISPLAY_WIDTH : Nat := 960

/-- Display height in pixels (DISPLAY_HEIGHT in the source). -/
def DISPLAY_HEIGHT : Nat := 160

/-- Zero bytes appended to every scanline (LINE_PADDING in the source). -/
def LINE_PADDING : Nat := 128

/-- Maximum bytes per transport write (CHUNK_SIZE in the source). -/
def CHUNK_SIZE : Nat := 16384

/-- Embedding of Push3Display.rgb888_to_rgb565. -/
def rgb888_to_rgb565 (r g b : Nat) : Nat :=
  let r5 := (r >>> 3) &&& 0x1F
  let g6 := (g >>> 2) &&& 0x3F
  let b5 := (b >>> 3) &&& 0x1F
  (r5 <<< 11) ||| (g6 <<< 5) ||| b5

/-- Little-endian serialization of a 16-bit value, as produced by
struct.pack with format <H in the source. -/
def packLE16 (v : Nat) : List Nat := [v % 256, v / 256 % 256]

/-- A pixel source: a function from coordinates to an RGB triple.  In the
source this is img.getpixel on the resized image. -/
def PixelSource : Type := Nat → Nat → Nat × Nat × Nat

/-- Embedding of the inner loop of Push3Display.prepare_image: the packed
bytes of scanline y followed by LINE_PADDING zero bytes. -/
def line_data (px : PixelSource) (y : Nat) : List Nat :=
  ((List.range DISPLAY_WIDTH).map fun x =>
    packLE16 (rgb888_to_rgb565 (px x y).1 (px x y).2.1 (px x y).2.2)).flatten
  ++ List.replicate LINE_PADDING 0

/-- Embedding of the framebuffer construction loop of
Push3Display.prepare_image, over an already resized pixel source. -/
def prepare_image_fb (px : PixelSource) : List Nat :=
  ((List.range DISPLAY_HEIGHT).map fun y => line_data px y).flatten

/-- A source image of arbitrary dimensions, as loaded by Image.open. -/
structure Image where
  width : Nat
  height : Nat
  px : PixelSource

/-- Embedding of Push3Display.prepare_image.  The source first resizes the
loaded image to DISPLAY_WIDTH times DISPLAY_HEIGHT (an external
image-processing collaborator, passed here as the resize argument) and
then builds the framebuffer from the resized pixels.  There is no failure
path: the function is total for every input image. -/
def prepare_image (resize : Image → Nat → Nat → Image) (img : Image) : List Nat :=
  prepare_image_fb (resize img DISPLAY_WIDTH DISPLAY_HEIGHT).px

/-- Byte-wise repeating-key XOR starting at absolute offset i, the
functional form of the loop inside Push3Display.encrypt_framebuffer,
generalized over the key. -/
def applyXorFrom (key : List Nat) (i : Nat) : List Nat → List Nat
  | [] => []
  | b :: bs => (b ^^^ key.getD (i % 4) 0) :: applyXorFrom key (i + 1) bs

/-- Embedding of Push3Display.encrypt_framebuffer: XOR every byte with
XOR_PATTERN indexed by the absolute offset modulo 4. -/
def encrypt_framebuffer (data : List Nat) : List Nat :=
  applyXorFrom XOR_PATTERN 0 data

/-- One iteration of the in-place loop of Push3Display.encrypt_framebuffer
acting on the mutable state: the first component is the data argument of
the caller, the second the fresh bytearray copy; only the copy is
updated. -/
def encryptLoopStep (key : List Nat) (st : List Nat × List Nat) (i : Nat) :
    List Nat × List Nat :=
  (st.1, st.2.set i (st.2.getD i 0 ^^^ key.getD (i % 4) 0))

/-- Operational model of Push3Display.encrypt_framebuffer with the mutable
buffers explicit: bytearray(data) makes a fresh copy, the loop updates the
copy index by index, and the pair (final data, returned bytes) is the
result. -/
def encrypt_framebuffer_run (data : List Nat) : List Nat × List Nat :=
  (List.range data.length).foldl (encryptLoopStep XOR_PATTERN) (data, data)

/-- Partition of a buffer into slices of at most c bytes, the functional
form of the loop for i in range(0, len(encrypted), CHUNK_SIZE) with
chunk = encrypted[i : i + CHUNK_SIZE] in Push3Display.send_frame.  The
guard on c = 0 is vacuous in the program, where c is always CHUNK_SIZE. -/
def chunks (c : Nat) (data : List Nat) : List (List Nat) :=
  if h : data = [] ∨ c = 0 then []
  else data.take c :: chunks c (data.drop c)
termination_by data.length
decreasing_by
  have hd : data ≠ [] := fun hn => h (Or.inl hn)
  have hc : 0 < c := Nat.pos_of_ne_zero fun hn => h (Or.inr hn)
  have hl : 0 < data.length := List.length_pos.mpr hd
  simp only [List.length_drop]
  omega

/-- Result of a run of send_frame, distinguishing the guard failure raised
before any write from a propagated transport failure.  The transport error
type is abstract: the source re-raises the exception of device.write
without wrapping it. -/
inductive SendError (ε : Type) where
  | notConnected : SendError ε
  | transport : ε → SendError ε
deriving DecidableEq, Repr

/-- The chunk loop of Push3Display.send_frame: attempt one transport write
per chunk in order on endpoint 1, stopping at the first failure.  The
transport is modelled by the outcome wr n of the n-th write call of the
frame; k is the index of the next call.  Returns the attempted writes and
the outcome. -/
def writeChunks {ε : Type} (wr : Nat → Except ε Unit) :
    Nat → List (List Nat) → List (Nat × List Nat) × Except ε Unit
  | _, [] => ([], Except.ok ())
  | k, ch :: rest =>
    match wr k with
    | Except.error e => ([(1, ch)], Except.error e)
    | Except.ok _ =>
      let r := writeChunks wr (k + 1) rest
      ((1, ch) :: r.1, r.2)

/-- Embedding of Push3Display.send_frame.  dev is the connection state
(None before a successful connect); wr gives the outcome of each write
call in order, call 0 being the header write.  The result pairs the trace
of attempted writes (endpoint, bytes) with the outcome of the call. -/
def send_frame {ε : Type} (dev : Option (Nat → Except ε Unit)) (framebuffer : List Nat) :
    List (Nat × List Nat) × Except (SendError ε) Unit :=
  match dev with
  | none => ([], Except.error SendError.notConnected)
  | some wr =>
    match wr 0 with
    | Except.error e => ([(1, FRAME_HEADER)], Except.error (SendError.transport e))
    | Except.ok _ =>
      let encrypted := encrypt_framebuffer framebuffer
      let r := writeChunks wr 1 (chunks CHUNK_SIZE encrypted)
      ((1, FRAME_HEADER) :: r.1,
       match r.2 with
       | Except.ok _ => Except.ok ()
       | Except.error e => Except.error (SendError.transport e))

/-- Transport environment whose m-th write call fails with error 7 and
whose other calls succeed. -/
def wrFailAt (m : Nat) : Nat → Except Nat Unit :=
  fun j => if j = m then Except.error 7 else Except.ok ()

/-- A five-chunk all-zero framebuffer used as a concrete run input. -/
def fbC2 : List Nat := List.replicate (5 * 16384) 0

/-- A resize collaborator returning an all-black raster of the requested
dimensions, standing in for the external image library. -/
def resizeConst : Image → Nat → Nat → Image :=
  fun _ w h => ⟨w, h, fun _ _ => (0, 0, 0)⟩

/-- A concrete source image of dimensions 2 by 2. -/
def img2x2 : Image := ⟨2, 2, fun _ _ => (0, 0, 0)⟩

/-- Transport environment whose every write call succeeds. -/
def wrOk : Nat → Except Unit Unit := fun _ => Except.ok ()

/-! Helper lemmas about the chunk partition. -/

/-- Unfolding equation of chunks on a nonempty buffer with a positive bound. -/
theorem chunks_eq {c : Nat} (hc : c ≠ 0) {data : List Nat} (hd : data ≠ []) :
    chunks c data = data.take c :: chunks c (data.drop c) := by
  rw [chunks]
  simp [hd, hc]

/-- Chunks of the empty buffer. -/
theorem chunks_nil (c : Nat) : chunks c [] = [] := by
  rw [chunks]
  simp

/-- A nonempty buffer yields at least one chunk. -/
theorem chunks_length_pos {c : Nat} (hc : c ≠ 0) {data : List Nat} (hd : data ≠ []) :
    0 < (chunks c data).length := by
  rw [chunks_eq hc hd]
  simp

/-- Concatenating the chunks in order reproduces the buffer. -/
theorem chunks_flatten (c : Nat) (hc : 0 < c) (data : List Nat) :
    (chunks c data).flatten = data := by
  have main : ∀ n (data : List Nat), data.length ≤ n → (chunks c data).flatten = data := by
    intro n
    induction n with
    | zero =>
      intro data h
      have hnil : data = [] := List.eq_nil_of_length_eq_zero (Nat.le_zero.mp h)
      rw [hnil, chunks_nil]
      rfl
    | succ n ih =>
      intro data h
      by_cases hd : data = []
      · rw [hd, chunks_nil]
        rfl
      · rw [chunks_eq (Nat.pos_iff_ne_zero.mp hc) hd, List.flatten_cons,
          ih (data.drop c) ?hlen, List.take_append_drop]
        case hlen =>
          have hl : 0 < data.length := List.length_pos.mpr hd
          simp only [List.length_drop]
          omega
  exact main data.length data (Nat.le_refl _)

/-- Every chunk is nonempty and no longer than the bound. -/
theorem chunks_mem_bound (c : Nat) (hc : 0 < c) (data : List Nat) :
    ∀ ch ∈ chunks c data, ch.length ≤ c ∧ ch ≠ [] := by
  have main : ∀ n (data : List Nat), data.length ≤ n →
      ∀ ch ∈ chunks c data, ch.length ≤ c ∧ ch ≠ [] := by
    intro n
    induction n with
    | zero =>
      intro data h ch hch
      have hnil : data = [] := List.eq_nil_of_length_eq_zero (Nat.le_zero.mp h)
      rw [hnil, chunks_nil] at hch
      exact absurd hch (List.not_mem_nil ch)
    | succ n ih =>
      intro data h ch hch
      by_cases hd : data = []
      · rw [hd, chunks_nil] at hch
        exact absurd hch (List.not_mem_nil ch)
      · rw [chunks_eq (Nat.pos_iff_ne_zero.mp hc) hd, List.mem_cons] at hch
        rcases hch with hch | hch
        · subst hch
          refine ⟨by simpa using Nat.min_le_left c data.length, ?_⟩
          simp only [ne_eq, List.take_eq_nil_iff]
          push_neg
          exact ⟨Nat.pos_iff_ne_zero.mp hc, hd⟩
        · have hl : 0 < data.length := List.length_pos.mpr hd
          refine ih (data.drop c) ?_ ch hch
          simp only [List.length_drop]
          omega
  exact main data.length data (Nat.le_refl _)

/-- The final chunk holds the remainder of the buffer length modulo the
bound, or a full chunk when the bound divides the length. -/
theorem chunks_getLast (c : Nat) (hc : 0 < c) (data : List Nat) (hd : data ≠ []) :
    ∃ last, (chunks c data).getLast? = some last ∧
      last.length = (if data.length % c = 0 then c else data.length % c) := by
  have main : ∀ n (data : List Nat), data.length ≤ n → data ≠ [] →
      ∃ last, (chunks c data).getLast? = some last ∧
        last.length = (if data.length % c = 0 then c else data.length % c) := by
    intro n
    induction n with
    | zero =>
      intro data h hd
      exact absurd (List.eq_nil_of_length_eq_zero (Nat.le_zero.mp h)) hd
    | succ n ih =>
      intro data h hd
      have hl : 0 < data.length := List.length_pos.mpr hd
      by_cases hsmall : data.length ≤ c
      · have hdrop : data.drop c = [] := List.drop_eq_nil_of_le hsmall
        have htake : data.take c = data := List.take_of_length_le hsmall
        rw [chunks_eq (Nat.pos_iff_ne_zero.mp hc) hd, hdrop, chunks_nil, htake]
        refine ⟨data, rfl, ?_⟩
        by_cases heq : data.length = c
        · simp [heq, Nat.mod_self]
        · have hlt : data.length < c := Nat.lt_of_le_of_ne hsmall heq
          rw [Nat.mod_eq_of_lt hlt, if_neg (Nat.pos_iff_ne_zero.mp hl)]
      · push_neg at hsmall
        have hdne : data.drop c ≠ [] := by
          simp only [ne_eq, List.drop_eq_nil_iff]
          omega
        obtain ⟨last, hlast, hlen⟩ := ih (data.drop c) (by simp; omega) hdne
        refine ⟨last, ?_, ?_⟩
        · rw [chunks_eq (Nat.pos_iff_ne_zero.mp hc) hd]
          rw [chunks_eq (Nat.pos_iff_ne_zero.mp hc) hdne] at hlast ⊢
          rw [List.getLast?_cons_cons]
          exact hlast
        · rw [hlen, List.length_drop]
          have hmod : (data.length - c) % c = data.length % c := by
            have : data.length = c + (data.length - c) := by omega
            rw [this, Nat.add_mod_left, Nat.add_sub_cancel_left]
          rw [hmod]
  exact main data.length data (Nat.le_refl _) hd

/-- When the bound divides the buffer length exactly, the partition has
length divided by bound many chunks, each exactly full. -/
theorem chunks_of_dvd (c : Nat) (hc : 0 < c) :
    ∀ (m : Nat) (data : List Nat), data.length = c * m →
      (chunks c data).length = m ∧ ∀ ch ∈ chunks c data, ch.length = c := by
  intro m
  induction m with
  | zero =>
    intro data h
    have hnil : data = [] := List.eq_nil_of_length_eq_zero (by simpa using h)
    rw [hnil, chunks_nil]
    exact ⟨rfl, by intro ch hch; exact absurd hch (List.not_mem_nil ch)⟩
  | succ m ih =>
    intro data h
    have hd : data ≠ [] := by
      intro hnil
      rw [hnil] at h
      simp at h
      omega
    have hcle : c ≤ data.length := by rw [h]; exact Nat.le_mul_of_pos_right c (Nat.succ_pos m)
    have hdroplen : (data.drop c).length = c * m := by
      simp only [List.length_drop, h]
      ring_nf
      omega
    obtain ⟨ihlen, ihall⟩ := ih (data.drop c) hdroplen
    rw [chunks_eq (Nat.pos_iff_ne_zero.mp hc) hd]
    constructor
    · simp [ihlen]
    · intro ch hch
      rw [List.mem_cons] at hch
      rcases hch with hch | hch
      · subst hch
        simp only [List.length_take]
        omega
      · exact ihall ch hch

/-! Helper lemmas about the XOR obfuscation. -/

/-- The XOR pass preserves the buffer length. -/
theorem applyXorFrom_length (key : List Nat) (i : Nat) (data : List Nat) :
    (applyXorFrom key i data).length = data.length := by
  induction data generalizing i with
  | nil => rfl
  | cons b bs ih => simp [applyXorFrom, ih]

/-- Byte i of the obfuscated buffer is byte i of the input XORed with the
key byte at the absolute offset modulo 4. -/
theorem applyXorFrom_getD (key : List Nat) (j : Nat) (data : List Nat) :
    ∀ i, i < data.length →
      (applyXorFrom key j data).getD i 0 = data.getD i 0 ^^^ key.getD ((j + i) % 4) 0 := by
  induction data generalizing j with
  | nil =>
    intro i hi
    simp at hi
  | cons b bs ih =>
    intro i hi
    cases i with
    | zero => simp [applyXorFrom]
    | succ i =>
      have hi2 : i < bs.length := by simpa using hi
      have := ih (j + 1) i hi2
      simp only [applyXorFrom, List.getD_cons_succ]
      rw [this]
      have harith : j + 1 + i = j + (i + 1) := by omega
      rw [harith]

/-- Applying the XOR pass twice with the same key and offset is the
identity. -/
theorem applyXorFrom_involution (key : List Nat) (i : Nat) (data : List Nat) :
    applyXorFrom key i (applyXorFrom key i data) = data := by
  induction data generalizing i with
  | nil => rfl
  | cons b bs ih =>
    simp only [applyXorFrom, List.cons.injEq]
    exact ⟨by rw [Nat.xor_assoc, Nat.xor_self, Nat.xor_zero], ih (i + 1)⟩

/-- The obfuscation pass preserves the framebuffer length. -/
theorem encrypt_framebuffer_length (data : List Nat) :
    (encrypt_framebuffer data).length = data.length :=
  applyXorFrom_length XOR_PATTERN 0 data

/-! Helper lemmas about the chunk write loop. -/

/-- When every write call succeeds, the chunk loop writes every chunk in
order on endpoint 1 and succeeds. -/
theorem writeChunks_all_ok {ε : Type} (wr : Nat → Except ε Unit)
    (hok : ∀ j, wr j = Except.ok ()) :
    ∀ (k : Nat) (cs : List (List Nat)),
      writeChunks wr k cs = (cs.map fun ch => (1, ch), Except.ok ()) := by
  intro k cs
  induction cs generalizing k with
  | nil => rfl
  | cons ch rest ih =>
    simp only [writeChunks, hok k, ih (k + 1), List.map_cons]

/-- When the first failing write call is the one for chunk m (call index
k + m), the chunk loop attempts exactly the chunks up to and including m
and stops with the transport error unchanged. -/
theorem writeChunks_fail {ε : Type} (wr : Nat → Except ε Unit) :
    ∀ (cs : List (List Nat)) (k m : Nat) (e : ε),
      (∀ j, j < m → wr (k + j) = Except.ok ()) →
      wr (k + m) = Except.error e →
      m < cs.length →
      writeChunks wr k cs = ((cs.take (m + 1)).map fun ch => (1, ch), Except.error e) := by
  intro cs
  induction cs with
  | nil =>
    intro k m e _ _ hm
    simp at hm
  | cons ch rest ih =>
    intro k m e hok hfail hm
    cases m with
    | zero =>
      simp only [Nat.add_zero] at hfail
      simp [writeChunks, hfail]
    | succ m =>
      have h0 : wr k = Except.ok () := by
        have := hok 0 (Nat.succ_pos m)
        simpa using this
      have hok2 : ∀ j, j < m → wr (k + 1 + j) = Except.ok () := by
        intro j hj
        have := hok (j + 1) (by omega)
        have harith : k + (j + 1) = k + 1 + j := by omega
        rwa [harith] at this
      have hfail2 : wr (k + 1 + m) = Except.error e := by
        have harith : k + (m + 1) = k + 1 + m := by omega
        rwa [harith] at hfail
      have hm2 : m < rest.length := by simpa using hm
      simp only [writeChunks, h0, ih (k + 1) m e hok2 hfail2 hm2, List.take_succ_cons,
        List.map_cons]

/-! Helper lemmas about the framebuffer builder. -/

/-- Length of a flattened map whose pieces all have the same length. -/
theorem flatten_map_length_const {α : Type} (f : α → List Nat) (c : Nat)
    (h : ∀ a, (f a).length = c) :
    ∀ l : List α, ((l.map f).flatten).length = l.length * c := by
  intro l
  induction l with
  | nil => simp
  | cons a t ih =>
    simp only [List.map_cons, List.flatten_cons, List.length_append, ih, h, List.length_cons]
    ring

/-- The packed pixel bytes of a scanline occupy two bytes per pixel. -/
theorem line_pixels_length (px : PixelSource) (y : Nat) :
    (((List.range DISPLAY_WIDTH).map fun x =>
        packLE16 (rgb888_to_rgb565 (px x y).1 (px x y).2.1 (px x y).2.2)).flatten).length
      = DISPLAY_WIDTH * 2 :=
  by
  rw [flatten_map_length_const
    (fun x => packLE16 (rgb888_to_rgb565 (px x y).1 (px x y).2.1 (px x y).2.2)) 2
    (fun x => rfl), List.length_range]

/-- Every scanline serializes to exactly the pitch. -/
theorem line_data_length (px : PixelSource) (y : Nat) :
    (line_data px y).length = DISPLAY_WIDTH * 2 + LINE_PADDING := by
  simp only [line_data, List.length_append, List.length_replicate, line_pixels_length]

/-- The bytes of a scanline after the packed pixels are the padding run of
zero bytes. -/
theorem line_data_drop (px : PixelSource) (y : Nat) :
    (line_data px y).drop (DISPLAY_WIDTH * 2) = List.replicate LINE_PADDING 0 := by
  rw [line_data, ← line_pixels_length px y, List.drop_left]

/-- The framebuffer builder always yields exactly 327,680 bytes. -/
theorem prepare_image_fb_length (px : PixelSource) :
    (prepare_image_fb px).length = 327680 := by
  rw [prepare_image_fb,
    flatten_map_length_const (fun y => line_data px y)
      (DISPLAY_WIDTH * 2 + LINE_PADDING) (fun y => line_data_length px y),
    List.length_range]
  decide

/-! Helper lemmas about send_frame runs. -/

/-- A fully successful run writes the header and then every chunk of the
obfuscated framebuffer, in order. -/
theorem send_frame_ok {ε : Type} (wr : Nat → Except ε Unit)
    (hok : ∀ j, wr j = Except.ok ()) (fb : List Nat) :
    send_frame (some wr) fb =
      ((1, FRAME_HEADER) ::
         (chunks CHUNK_SIZE (encrypt_framebuffer fb)).map (fun ch => (1, ch)),
       Except.ok ()) := by
  simp [send_frame, hok 0, writeChunks_all_ok wr hok]

/-- When the header write fails, the run stops with that single attempted
write. -/
theorem send_frame_header_fail {ε : Type} (wr : Nat → Except ε Unit) (fb : List Nat)
    (e : ε) (hfail : wr 0 = Except.error e) :
    send_frame (some wr) fb = ([(1, FRAME_HEADER)], Except.error (SendError.transport e)) := by
  simp [send_frame, hfail]

/-- When calls 0 .. k succeed and call k + 1 (the write of chunk k) fails,
the run attempts the header and chunks 0 .. k only and propagates the
transport error unchanged. -/
theorem send_frame_chunk_fail {ε : Type} (wr : Nat → Except ε Unit) (fb : List Nat)
    (k : Nat) (e : ε)
    (hok : ∀ j, j ≤ k → wr j = Except.ok ())
    (hfail : wr (k + 1) = Except.error e)
    (hk : k < (chunks CHUNK_SIZE (encrypt_framebuffer fb)).length) :
    send_frame (some wr) fb =
      ((1, FRAME_HEADER) ::
         ((chunks CHUNK_SIZE (encrypt_framebuffer fb)).take (k + 1)).map (fun ch => (1, ch)),
       Except.error (SendError.transport e)) := by
  have h0 : wr 0 = Except.ok () := hok 0 (Nat.zero_le k)
  have hok2 : ∀ j, j < k → wr (1 + j) = Except.ok () := by
    intro j hj
    have := hok (j + 1) (by omega)
    rwa [Nat.add_comm] at this
  have hfail2 : wr (1 + k) = Except.error e := by rwa [Nat.add_comm] at hfail
  have hloop := writeChunks_fail wr (chunks CHUNK_SIZE (encrypt_framebuffer fb))
    1 k e hok2 hfail2 hk
  simp [send_frame, h0, hloop]

/-- Whatever the transport does, the first attempted write of a connected
run is the unmodified header on endpoint 1. -/
theorem send_frame_head {ε : Type} (wr : Nat → Except ε Unit) (fb : List Nat) :
    ((send_frame (some wr) fb).1).head? = some (1, FRAME_HEADER) := by
  cases h : wr 0 <;> simp [send_frame, h]

/-! Helper lemmas about the operational model of the obfuscation loop. -/

/-- The in-place loop never touches the data argument of the caller: the
first component of the state is invariant. -/
theorem foldl_encryptLoopStep (key : List Nat) :
    ∀ (l : List Nat) (d c : List Nat),
      l.foldl (encryptLoopStep key) (d, c)
        = (d, l.foldl (fun acc i => acc.set i (acc.getD i 0 ^^^ key.getD (i % 4) 0)) c) := by
  intro l
  induction l with
  | nil => intro d c; rfl
  | cons i t ih => intro d c; simp only [List.foldl_cons, encryptLoopStep, ih]

/-- Folding the in-place update over the indices of the unprocessed suffix
produces exactly the functional XOR pass on that suffix. -/
theorem foldl_set_xor (key : List Nat) :
    ∀ (cur pre : List Nat),
      (List.range' pre.length cur.length).foldl
          (fun acc i => acc.set i (acc.getD i 0 ^^^ key.getD (i % 4) 0)) (pre ++ cur)
        = pre ++ applyXorFrom key pre.length cur := by
  intro cur
  induction cur with
  | nil => intro pre; simp [applyXorFrom]
  | cons b bs ih =>
    intro pre
    rw [List.length_cons, List.range'_succ, List.foldl_cons]
    have hget : (pre ++ b :: bs).getD pre.length 0 = b := by
      rw [List.getD_eq_getElem?_getD, List.getElem?_append_right (Nat.le_refl _)]
      simp
    have hset : (pre ++ b :: bs).set pre.length (b ^^^ key.getD (pre.length % 4) 0)
        = (pre ++ [b ^^^ key.getD (pre.length % 4) 0]) ++ bs := by
      rw [List.set_append_right _ _ (Nat.le_refl _)]
      simp
    rw [hget, hset]
    have hlen : (pre ++ [b ^^^ key.getD (pre.length % 4) 0]).length = pre.length + 1 := by
      simp
    have := ih (pre ++ [b ^^^ key.getD (pre.length % 4) 0])
    rw [hlen] at this
    rw [this]
    simp [applyXorFrom, List.append_assoc]

/-- The operational run of encrypt_framebuffer leaves the input buffer
unchanged and returns the functional obfuscation of it. -/
theorem encrypt_framebuffer_run_eq (data : List Nat) :
    encrypt_framebuffer_run data = (data, encrypt_framebuffer data) := by
  rw [encrypt_framebuffer_run, foldl_encryptLoopStep]
  have h := foldl_set_xor XOR_PATTERN data []
  simp only [List.length_nil, List.nil_append] at h
  rw [List.range_eq_range', h, encrypt_framebuffer]

/-! Claim theorems. -/

/-- C1: for every payload of positive length and positive chunk bound, the
chunk partition used by send_frame keeps the chunks in order with each
chunk at most the bound and never empty, the last chunk holds the length
remainder (a full chunk on exact division), concatenating the chunks
reproduces the payload, and a 327,680-byte payload with bound 16,384
yields exactly 20 chunks of 16,384 bytes each. -/
theorem C1_chunk_partition (p : List Nat) (c : Nat) (hp : 0 < p.length) (hc : 0 < c) :
    (chunks c p).flatten = p
  ∧ (∀ ch ∈ chunks c p, ch.length ≤ c ∧ ch ≠ [])
  ∧ (∃ last, (chunks c p).getLast? = some last
       ∧ last.length = (if p.length % c = 0 then c else p.length % c))
  ∧ (p.length = 327680 → c = 16384 →
       (chunks c p).length = 20 ∧ ∀ ch ∈ chunks c p, ch.length = 16384) := by
  have hd : p ≠ [] := by
    intro h
    rw [h] at hp
    simp at hp
  refine ⟨chunks_flatten c hc p, chunks_mem_bound c hc p, chunks_getLast c hc p hd, ?_⟩
  intro hlen hcc
  subst hcc
  exact chunks_of_dvd 16384 (by decide) 20 p (by rw [hlen])

/-- Witness for C1 at the payload 0, 1, 2 with bound 2. -/
theorem C1_chunk_partition_witness :
    (chunks 2 [0, 1, 2]).flatten = [0, 1, 2]
  ∧ (∀ ch ∈ chunks 2 [0, 1, 2], ch.length ≤ 2 ∧ ch ≠ [])
  ∧ (∃ last, (chunks 2 [0, 1, 2]).getLast? = some last
       ∧ last.length =
           (if ([0, 1, 2] : List Nat).length % 2 = 0 then 2
            else ([0, 1, 2] : List Nat).length % 2))
  ∧ (([0, 1, 2] : List Nat).length = 327680 → 2 = 16384 →
       (chunks 2 [0, 1, 2]).length = 20 ∧ ∀ ch ∈ chunks 2 [0, 1, 2], ch.length = 16384) :=
  C1_chunk_partition [0, 1, 2] 2 (by decide) (by decide)

/-- C2 (amended): when the transport write for chunk k fails, no write for
any later chunk is attempted (the trace stops with the header and chunks
0 through k), and send_frame propagates the underlying transport error
unchanged, wrapping it in no structure that records the failing chunk
index or a bytes-sent count. -/
theorem C2_abort_on_chunk_failure {ε : Type} (wr : Nat → Except ε Unit) (fb : List Nat)
    (k : Nat) (e : ε)
    (hok : ∀ j, j ≤ k → wr j = Except.ok ())
    (hfail : wr (k + 1) = Except.error e)
    (hk : k < (chunks CHUNK_SIZE (encrypt_framebuffer fb)).length) :
    (send_frame (some wr) fb).2 = Except.error (SendError.transport e)
  ∧ (send_frame (some wr) fb).1 =
      (1, FRAME_HEADER) ::
        ((chunks CHUNK_SIZE (encrypt_framebuffer fb)).take (k + 1)).map (fun ch => (1, ch)) := by
  rw [send_frame_chunk_fail wr fb k e hok hfail hk]
  exact ⟨rfl, rfl⟩

/-- Witness for C2 at a one-byte framebuffer whose first chunk write
fails. -/
theorem C2_abort_on_chunk_failure_witness :
    (send_frame (some (wrFailAt 1)) [0]).2 = Except.error (SendError.transport 7)
  ∧ (send_frame (some (wrFailAt 1)) [0]).1 =
      (1, FRAME_HEADER) ::
        ((chunks CHUNK_SIZE (encrypt_framebuffer [0])).take (0 + 1)).map (fun ch => (1, ch)) :=
  C2_abort_on_chunk_failure (wrFailAt 1) [0] 0 7
    (fun j hj => by
      have hj0 : j = 0 := Nat.le_zero.mp hj
      rw [hj0]
      rfl)
    rfl
    (chunks_length_pos (by decide) (by decide))

/-- C2 counterexample: two runs whose failing chunk index and successfully
sent byte counts differ (chunk 0 after 0 payload bytes versus chunk 4
after 65,536 payload bytes) return the very same error value, so the
propagated error is the raw transport error and carries neither a stage
field naming the failing chunk nor a bytes-sent count. -/
theorem C2_no_stage_in_error_counterexample :
    (send_frame (some (wrFailAt 1)) fbC2).2 = Except.error (SendError.transport 7)
  ∧ (send_frame (some (wrFailAt 5)) fbC2).2 = Except.error (SendError.transport 7)
  ∧ (send_frame (some (wrFailAt 1)) fbC2).2 = (send_frame (some (wrFailAt 5)) fbC2).2
  ∧ (send_frame (some (wrFailAt 1)) fbC2).1.length = 2
  ∧ (send_frame (some (wrFailAt 5)) fbC2).1.length = 6 := by
  have hlen : (chunks CHUNK_SIZE (encrypt_framebuffer fbC2)).length = 5 := by
    have h := chunks_of_dvd CHUNK_SIZE (by decide) 5 (encrypt_framebuffer fbC2)
      (by rw [encrypt_framebuffer_length]; simp only [fbC2, List.length_replicate]; decide)
    exact h.1
  have hA := send_frame_chunk_fail (wrFailAt 1) fbC2 0 7
    (fun j hj => by
      have hj0 : j = 0 := Nat.le_zero.mp hj
      rw [hj0]
      rfl)
    rfl
    (by omega)
  have hB := send_frame_chunk_fail (wrFailAt 5) fbC2 4 7
    (fun j hj => by
      have : j ≠ 5 := by omega
      simp [wrFailAt, this])
    rfl
    (by omega)
  rw [hA, hB]
  refine ⟨rfl, rfl, rfl, ?_, ?_⟩ <;>
  · rw [List.length_cons, List.length_map, List.length_take, hlen]
    decide

/-- C3: with a connected device, send_frame first writes the 16-byte fixed
header FF CC AA 88 followed by twelve zero bytes, completing or failing
before any payload write, and then writes the chunks strictly in payload
order; for a 327,680-byte framebuffer a successful run makes 1 header
write followed by 20 payload writes summing to 327,680 bytes. -/
theorem C3_header_before_payload {ε : Type} (wr : Nat → Except ε Unit) (fb : List Nat)
    (hok : ∀ j, wr j = Except.ok ()) :
    (send_frame (some wr) fb).1
      = (1, FRAME_HEADER) ::
          (chunks CHUNK_SIZE (encrypt_framebuffer fb)).map (fun ch => (1, ch))
  ∧ FRAME_HEADER = [0xFF, 0xCC, 0xAA, 0x88] ++ List.replicate 12 0
  ∧ FRAME_HEADER.length = 16
  ∧ (∀ (wrf : Nat → Except ε Unit) (e : ε), wrf 0 = Except.error e →
       (send_frame (some wrf) fb).1 = [(1, FRAME_HEADER)])
  ∧ (fb.length = 327680 →
       (send_frame (some wr) fb).1.length = 21
     ∧ (((send_frame (some wr) fb).1.drop 1).map (fun w => w.2.length)).sum = 327680) := by
  have hsf := send_frame_ok wr hok fb
  refine ⟨by rw [hsf], by decide, by decide, ?_, ?_⟩
  · intro wrf e hf
    rw [send_frame_header_fail wrf fb e hf]
  · intro hlen
    have hchunks := chunks_of_dvd CHUNK_SIZE (by decide) 20 (encrypt_framebuffer fb)
      (by rw [encrypt_framebuffer_length, hlen]; decide)
    constructor
    · rw [hsf]
      simp [List.length_map, hchunks.1]
    · rw [hsf]
      simp only [List.drop_succ_cons, List.drop_zero, List.map_map]
      have hcomp : ((fun w : Nat × List Nat => w.2.length) ∘ fun ch : List Nat => (1, ch))
          = fun ch : List Nat => ch.length := rfl
      rw [hcomp, show (fun ch : List Nat => ch.length) = List.length from rfl,
        ← List.length_flatten, chunks_flatten CHUNK_SIZE (by decide),
        encrypt_framebuffer_length, hlen]

/-- Witness for C3 at the empty framebuffer with an always-succeeding
transport. -/
theorem C3_header_before_payload_witness :
    (send_frame (some wrOk) ([] : List Nat)).1
      = (1, FRAME_HEADER) ::
          (chunks CHUNK_SIZE (encrypt_framebuffer [])).map (fun ch => (1, ch))
  ∧ FRAME_HEADER = [0xFF, 0xCC, 0xAA, 0x88] ++ List.replicate 12 0
  ∧ FRAME_HEADER.length = 16
  ∧ (∀ (wrf : Nat → Except Unit Unit) (e : Unit), wrf 0 = Except.error e →
       (send_frame (some wrf) ([] : List Nat)).1 = [(1, FRAME_HEADER)])
  ∧ (([] : List Nat).length = 327680 →
       (send_frame (some wrOk) ([] : List Nat)).1.length = 21
     ∧ (((send_frame (some wrOk) ([] : List Nat)).1.drop 1).map
          (fun w => w.2.length)).sum = 327680) :=
  C3_header_before_payload wrOk [] (fun _ => rfl)

/-- C4: the framebuffer builder outputs, for each y from 0 to height - 1
in ascending order, the packed little-endian pixel bytes of row y followed
by the padding run of zero bytes; every scanline serializes to the fixed
pitch of width times 2 plus padding bytes, and the total output length is
exactly 160 times 2048, that is 327,680 bytes, for every pixel source. -/
theorem C4_framebuffer_builder (px : PixelSource) :
    prepare_image_fb px = ((List.range DISPLAY_HEIGHT).map fun y => line_data px y).flatten
  ∧ (∀ y, (line_data px y).length = DISPLAY_WIDTH * 2 + LINE_PADDING
      ∧ (line_data px y).drop (DISPLAY_WIDTH * 2) = List.replicate LINE_PADDING 0)
  ∧ (prepare_image_fb px).length = DISPLAY_HEIGHT * (DISPLAY_WIDTH * 2 + LINE_PADDING)
  ∧ (prepare_image_fb px).length = 327680 := by
  refine ⟨rfl, fun y => ⟨line_data_length px y, line_data_drop px y⟩, ?_, prepare_image_fb_length px⟩
  rw [prepare_image_fb_length px]
  decide

/-- C5: the obfuscation layer maps the byte at absolute framebuffer index
i to that byte XOR the key byte at index i modulo 4, with the fixed key
E7 F3 E7 FF, and the header is never passed through the transform: the
first write of every connected run is the unmodified FRAME_HEADER. -/
theorem C5_obfuscation_indexing (fb : List Nat) (i : Nat) (hi : i < fb.length) :
    (encrypt_framebuffer fb).getD i 0 = fb.getD i 0 ^^^ XOR_PATTERN.getD (i % 4) 0
  ∧ XOR_PATTERN = [0xE7, 0xF3, 0xE7, 0xFF]
  ∧ (∀ (ε : Type) (wr : Nat → Except ε Unit),
       ((send_frame (some wr) fb).1).head? = some (1, FRAME_HEADER)) := by
  refine ⟨?_, rfl, fun ε wr => send_frame_head wr fb⟩
  have h := applyXorFrom_getD XOR_PATTERN 0 fb i hi
  simpa using h

/-- Witness for C5 at the two-byte framebuffer 16, 32 and index 1. -/
theorem C5_obfuscation_indexing_witness :
    (encrypt_framebuffer [16, 32]).getD 1 0
      = ([16, 32] : List Nat).getD 1 0 ^^^ XOR_PATTERN.getD (1 % 4) 0
  ∧ XOR_PATTERN = [0xE7, 0xF3, 0xE7, 0xFF]
  ∧ (∀ (ε : Type) (wr : Nat → Except ε Unit),
       ((send_frame (some wr) [16, 32]).1).head? = some (1, FRAME_HEADER)) :=
  C5_obfuscation_indexing [16, 32] 1 (by decide)

/-- C6: applying the XOR obfuscation twice with the same four-byte key
returns the original buffer, and in particular the encrypt pass of the
source with its fixed key is an involution. -/
theorem C6_xor_involution (b k : List Nat) (hk : k.length = 4) :
    applyXorFrom k 0 (applyXorFrom k 0 b) = b
  ∧ encrypt_framebuffer (encrypt_framebuffer b) = b := by
  refine ⟨applyXorFrom_involution k 0 b, ?_⟩
  rw [encrypt_framebuffer, encrypt_framebuffer]
  exact applyXorFrom_involution XOR_PATTERN 0 b

/-- Witness for C6 at the buffer 1, 250, 3 and the key 9, 8, 7, 6. -/
theorem C6_xor_involution_witness :
    applyXorFrom [9, 8, 7, 6] 0 (applyXorFrom [9, 8, 7, 6] 0 [1, 250, 3]) = [1, 250, 3]
  ∧ encrypt_framebuffer (encrypt_framebuffer [1, 250, 3]) = [1, 250, 3] :=
  C6_xor_involution [1, 250, 3] [9, 8, 7, 6] (by decide)

/-- C7: for all channel values in the byte range, the pixel codec is the
stated total deterministic bit manipulation, its result fits in 16 bits,
and pure red encodes to 0xF800. -/
theorem C7_pixel_codec (r g b : Nat) (hr : r ≤ 255) (hg : g ≤ 255) (hb : b ≤ 255) :
    rgb888_to_rgb565 r g b
      = (((r >>> 3) &&& 0x1F) <<< 11) ||| (((g >>> 2) &&& 0x3F) <<< 5) ||| ((b >>> 3) &&& 0x1F)
  ∧ rgb888_to_rgb565 r g b < 65536
  ∧ rgb888_to_rgb565 255 0 0 = 0xF800 := by
  refine ⟨rfl, ?_, by decide⟩
  have hr5 : (r >>> 3) &&& 0x1F ≤ 31 := Nat.and_le_right
  have hg6 : (g >>> 2) &&& 0x3F ≤ 63 := Nat.and_le_right
  have hb5 : (b >>> 3) &&& 0x1F ≤ 31 := Nat.and_le_right
  have h1 : ((r >>> 3) &&& 0x1F) <<< 11 < 2 ^ 16 := by
    rw [Nat.shiftLeft_eq]
    norm_num
    omega
  have h2 : ((g >>> 2) &&& 0x3F) <<< 5 < 2 ^ 16 := by
    rw [Nat.shiftLeft_eq]
    norm_num
    omega
  have h3 : (b >>> 3) &&& 0x1F < 2 ^ 16 := by omega
  have h := Nat.or_lt_two_pow (Nat.or_lt_two_pow h1 h2) h3
  have hgoal : rgb888_to_rgb565 r g b
      = (((r >>> 3) &&& 0x1F) <<< 11) ||| (((g >>> 2) &&& 0x3F) <<< 5) ||| ((b >>> 3) &&& 0x1F) :=
    rfl
  rw [hgoal]
  exact lt_of_lt_of_le h (by norm_num)

/-- Witness for C7 at the sample 200, 100, 50. -/
theorem C7_pixel_codec_witness :
    rgb888_to_rgb565 200 100 50
      = (((200 >>> 3) &&& 0x1F) <<< 11) ||| (((100 >>> 2) &&& 0x3F) <<< 5) ||| ((50 >>> 3) &&& 0x1F)
  ∧ rgb888_to_rgb565 200 100 50 < 65536
  ∧ rgb888_to_rgb565 255 0 0 = 0xF800 :=
  C7_pixel_codec 200 100 50 (by decide) (by decide) (by decide)

/-- C8 (amended): framebuffer construction never fails on source geometry:
prepare_image resizes every source image to 960 by 160 through the
external image collaborator and always returns a 327,680-byte
framebuffer; no geometry error exists in the code and construction
performs no transport write. -/
theorem C8_construction_total (resize : Image → Nat → Nat → Image) (img : Image) :
    (prepare_image resize img).length = 327680 :=
  prepare_image_fb_length _

/-- C8 counterexample: a concrete 2 by 2 source image, whose dimensions
are not 960 by 160, is accepted: construction succeeds and returns the
full 327,680-byte framebuffer instead of failing with a geometry
error. -/
theorem C8_no_geometry_failure_counterexample :
    img2x2.width = 2 ∧ img2x2.height = 2
  ∧ ¬(img2x2.width = DISPLAY_WIDTH ∧ img2x2.height = DISPLAY_HEIGHT)
  ∧ (prepare_image resizeConst img2x2).length = 327680 := by
  refine ⟨rfl, rfl, by decide, prepare_image_fb_length _⟩

/-- C9: with no device handle established, send_frame fails with the not
connected error and attempts no transport write at all, the header write
included. -/
theorem C9_requires_connection (ε : Type) (fb : List Nat) :
    send_frame (none : Option (Nat → Except ε Unit)) fb
      = ([], Except.error SendError.notConnected) := rfl

/-- C10: the obfuscation step copies its input into a fresh buffer and
mutates only the copy: after the run the data argument still holds its
original bytes, and the returned buffer is the functional obfuscation. -/
theorem C10_input_unchanged (data : List Nat) :
    (encrypt_framebuffer_run data).1 = data
  ∧ (encrypt_framebuffer_run data).2 = encrypt_framebuffer data := by
  rw [encrypt_framebuffer_run_eq]
  exact ⟨rfl, rfl⟩

end Push3
